import Mathlib

/-!
Shallow embedding of the core optimization code of the `meh` TSP repository.

The embedded sources are:
* `dawniejsze/older/2019_2020/dzienne_2019_2020/5/salesman.cpp` — brute force,
  `generate_neighbours`, deterministic hill climbing, tabu search;
* the unnamed salesman driver (`src/unnamed/part_000`) — one point and two point
  crossover and the descending single gene mutation;
* `old_/2019_2020/dzienne_2019_2020/9/src/salesman.cpp` — the generational
  genetic algorithm loop;
* `dawniejsze/older/2020-2021/12_ga_island/generic_ga.cpp` — the island model
  (`ep`), whose `init_pop` also exhibits the factoradic decoding process.

Randomness is derandomized: every draw the C++ code takes from the shared
`std::default_random_engine` becomes an explicit argument (a value, or an
oracle indexed by the loop counter).  Objective and fitness values are modelled
as rationals; all claims below depend only on order comparisons, not on the
floating point representation.
-/

/-- Genes of an alternative (factoradic) solution: the `solution` vector of
`alternative_solution_t`.  The vector has length `n` (the number of cities) and
position `i` is meant to hold a value in `[0, n - i)`. -/
abbrev Genes : Type := List Nat

/-- Well-formedness of an alternative solution: every gene lies within its
positional bound, gene `i < length - i`. -/
def WFgenes (s : Genes) : Prop := ∀ i, i < s.length → s.getD i 0 < s.length - i

instance (s : Genes) : Decidable (WFgenes s) :=
  Nat.decidableBallLT s.length (fun i _ => s.getD i 0 < s.length - i)

/-- Neighbour generation (`generate_neighbours`, 5/salesman.cpp lines 113-127):
for each position `i` in `[0, L-1)` it appends two variants, the gene at `i`
incremented and then decremented modulo its positional bound `L - i`. -/
def generate_neighbours (s : Genes) : List Genes :=
  (List.range (s.length - 1)).foldl
    (fun ret i =>
      ret ++ [s.set i ((s.getD i 0 + 1) % (s.length - i)),
              s.set i ((s.getD i 0 + (s.length - i) - 1) % (s.length - i))]) []

/-- Scan used by `hillclimb_deteriministic` and `tabusearch` to pick the best
neighbour: `current_best` starts as `neighbours.back()` and every strictly
better element (first occurrence) replaces it. -/
def current_best (goal : Genes → ℚ) (neighbours : List Genes) : Genes :=
  neighbours.foldl (fun b x => if goal x < goal b then x else b) (neighbours.getLastD [])

/-- Decoding step of the factoradic representation, as performed by the inner
loop of `init_pop` (generic_ga.cpp lines 157-174): take the `g`-th entry of the
remaining `numbers` and erase it. -/
def decode_step : Genes → List Nat → List Nat
  | [], _ => []
  | g :: gs, numbers => numbers.getD g 0 :: decode_step gs (numbers.eraseIdx g)

/-- Decode an alternative solution into a tour over `[0, n)` where `n` is the
gene count. -/
def decode (genes : Genes) : List Nat := decode_step genes (List.range genes.length)

/-- Gene-wise overwriting loop shared by the two crossovers
(`for (int i = ...; i < stop; i++) { new_a[i] = b[i]; new_b[i] = a[i]; }`).
The `fuel` argument bounds the iteration count so the recursion is structural;
callers pass enough fuel for the whole range. -/
def xover_loop (a b : Genes) (stop : Nat) : Nat → Nat → Genes × Genes → Genes × Genes
  | 0, _, nab => nab
  | fuel+1, i, nab =>
    if i < stop then
      xover_loop a b stop fuel (i+1) (nab.1.set i (b.getD i 0), nab.2.set i (a.getD i 0))
    else nab

/-- One point crossover (`crossover_one_point`, unnamed driver lines 39-51):
the suffix from the (given) cut index onward is swapped between the children. -/
def crossover_one_point (cut : Nat) (a b : Genes) : Genes × Genes :=
  xover_loop a b a.length a.length cut (a, b)

/-- Two point crossover (`crossover_two_point`, unnamed driver lines 53-69):
the two cut indices are ordered and the half open segment between them is
swapped between the children. -/
def crossover_two_point (cut1 cut2 : Nat) (a b : Genes) : Genes × Genes :=
  xover_loop a b (max cut1 cut2) (max cut1 cut2) (min cut1 cut2) (a, b)

/-- Descending single gene mutation (`mutation_change_one_city_descending`,
unnamed driver lines 74-88).  The uniform draw `u`, the mutation point and the
freshly drawn gene value are explicit arguments; the C++ draw ranges are
`mut_point ∈ [0, n-2]` and `new_gene ∈ [0, (n-1) - mut_point]`. -/
def mutation_change_one_city_descending (pm u : ℚ) (mut_point new_gene : Nat)
    (a : Genes) : Genes :=
  if u < pm then a.set mut_point new_gene else a

/-- Trace of the states visited by `hillclimb_deteriministic`
(5/salesman.cpp lines 132-155): while iterations remain, compute the full
neighbour set, scan it for the best candidate, and move there only on strict
improvement; otherwise stop early. -/
def hc_trace (goal : Genes → ℚ) : Nat → Genes → List Genes
  | 0, s => [s]
  | it+1, s =>
    if goal (current_best goal (generate_neighbours s)) < goal s then
      s :: hc_trace goal it (current_best goal (generate_neighbours s))
    else [s]

/-- Result of deterministic hill climbing: the last state of the trace. -/
def hillclimb_deteriministic (goal : Genes → ℚ) (iterations : Nat) (start : Genes) : Genes :=
  (hc_trace goal iterations start).getLastD start

/-- Removal of tabu elements from a neighbour list (the `remove_if` in
`tabusearch`): keep only neighbours structurally equal to no tabu entry. -/
def tabu_filter (tabu_list neighbours : List Genes) : List Genes :=
  neighbours.filter (fun te => decide (¬ te ∈ tabu_list))

/-- Tabu search (`tabusearch`, 5/salesman.cpp lines 167-214).  The list front
is the oldest entry and the back the most recent.  When the filtered neighbour
set is empty the oldest entry is evicted, or, when only one entry remains, the
incumbent `global_best` is returned at once. -/
def tabusearch (goal : Genes → ℚ) (max_tabu_size : Nat) :
    Nat → List Genes → Genes → Genes
  | 0, _, global_best => global_best
  | it+1, tabu_list, global_best =>
    if (tabu_filter tabu_list (generate_neighbours (tabu_list.getLastD []))).isEmpty then
      if 1 < tabu_list.length then
        tabusearch goal max_tabu_size it (tabu_list.drop 1) global_best
      else global_best
    else
      tabusearch goal max_tabu_size it
        (if max_tabu_size ≤ tabu_list.length + 1 then
          (tabu_list ++ [current_best goal
            (tabu_filter tabu_list (generate_neighbours (tabu_list.getLastD [])))]).drop 1
         else
          tabu_list ++ [current_best goal
            (tabu_filter tabu_list (generate_neighbours (tabu_list.getLastD [])))])
        (if goal (current_best goal
            (tabu_filter tabu_list (generate_neighbours (tabu_list.getLastD [])))) <
            goal global_best then
          current_best goal (tabu_filter tabu_list (generate_neighbours (tabu_list.getLastD [])))
         else global_best)

/-- Index of the first occurrence of `a` in a list (0 past the end). -/
def first_idx {α : Type} [DecidableEq α] (a : α) : List α → Nat
  | [] => 0
  | b :: t => if a = b then 0 else first_idx a t + 1

/-- Modelled from the spec: `solution_t::next_solution` is declared in
`salesman.hpp`, which is not among the sources; per the spec it is "a next
permutation successor operation starting from and cycling back to an initial
ordering" that enumerates all permutations.  The do-while loop of
`brute_force_find_solution` therefore visits, in cyclic order, every
permutation after `start` and finally `start` itself.  `brute_visited` is that
visit sequence, with `start.permutations` fixing the enumeration order. -/
def brute_visited (start : List Nat) : List (List Nat) :=
  start.permutations.drop (first_idx start start.permutations + 1) ++
    start.permutations.take (first_idx start start.permutations) ++ [start]

/-- Update of the incumbent in the brute force loop: replace `best` only on
strict improvement (`if (best.goal() > current.goal()) best = current`). -/
def improve (goal : List Nat → ℚ) (best cur : List Nat) : List Nat :=
  if goal cur < goal best then cur else best

/-- Brute force search (`brute_force_find_solution`, 5/salesman.cpp lines
80-93): starting from `best = start`, walk the successor cycle and keep the
strictly better solution at each visit. -/
def brute_force_find_solution (goal : List Nat → ℚ) (start : List Nat) : List Nat :=
  (brute_visited start).foldl (improve goal) start

/-- Parent selection phase of the generational loop (9/src/salesman.cpp lines
52-54): `n` parents are picked from the population at the indices returned by
the selection oracle. -/
def select_phase (n : Nat) (population : List Genes) (sel : Nat → Nat) : List Genes :=
  (List.range n).map (fun i => population.getD (sel i) [])

/-- Crossover phase of the generational loop (9/src/salesman.cpp lines 56-66):
`for (i = 0; i < n-1; i += 2)` either crosses parents `i` and `i+1` (when the
draw `u` satisfies `pc < u`) or passes them through, appending two children. -/
def cross_loop (n : Nat) (pc : ℚ) (crossf : Genes → Genes → Genes × Genes)
    (draws : Nat → ℚ) (parents : List Genes) : Nat → Nat → List Genes → List Genes
  | 0, _, children => children
  | fuel+1, i, children =>
    if i + 1 < n then
      if pc < draws i then
        cross_loop n pc crossf draws parents fuel (i+2)
          (children ++ [(crossf (parents.getD i []) (parents.getD (i+1) [])).1,
                        (crossf (parents.getD i []) (parents.getD (i+1) [])).2])
      else
        cross_loop n pc crossf draws parents fuel (i+2)
          (children ++ [parents.getD i [], parents.getD (i+1) []])
    else children

/-- Mutation phase of the generational loop (9/src/salesman.cpp lines 68-74):
`for (i = 0; i < n-1; i += 2) if (pm < u_i) children[i] = mutation_f(children[i])`. -/
def mut_loop (n : Nat) (pm : ℚ) (mutf : Genes → Genes) (draws : Nat → ℚ) :
    Nat → Nat → List Genes → List Genes
  | 0, _, children => children
  | fuel+1, i, children =>
    if i + 1 < n then
      mut_loop n pm mutf draws fuel (i+2)
        (if pm < draws i then children.set i (mutf (children.getD i [])) else children)
    else children

/-- One generation of the `genetic_algorithm` closure (9/src/salesman.cpp lines
38-81): select `n` parents (`n` is the initial population size, fixed for the
run), run the pairwise crossover loop, run the mutation loop, and let the
children replace the population. -/
def genetic_algorithm_generation (n : Nat) (sel : Nat → Nat) (pc pm : ℚ)
    (crossf : Genes → Genes → Genes × Genes) (cd md : Nat → ℚ)
    (mutf : Genes → Genes) (population : List Genes) : List Genes :=
  mut_loop n pm mutf md n 0
    (cross_loop n pc crossf cd (select_phase n population sel) n 0 [])

/-- Run of the generational loop for a given number of generations; the oracle
families are indexed by the generation counter. -/
def genetic_algorithm_run (n : Nat) (sel : Nat → Nat → Nat) (pc pm : ℚ)
    (crossf : Genes → Genes → Genes × Genes) (cd md : Nat → Nat → ℚ)
    (mutf : Genes → Genes) : Nat → List Genes → List Genes
  | 0, population => population
  | g+1, population =>
    genetic_algorithm_run n sel pc pm crossf cd md mutf g
      (genetic_algorithm_generation n (sel g) pc pm crossf (cd g) (md g) mutf population)

/-- Ascending-by-fitness sort used before dropping the two worst individuals
(`sort` with comparator `fitness(a) < fitness(b)` in `ep`). -/
def sort_by_fitness (fitness : List Nat → ℚ) (deme : List (List Nat)) : List (List Nat) :=
  deme.mergeSort (fun a b => decide (fitness a ≤ fitness b))

/-- Best individual of a deme (`std::max_element` with comparator
`fitness(a) < fitness(b)`: the first occurrence of the maximum).  The C++ code
never calls it on an empty deme; the empty case is given a dummy value. -/
def max_element_by (fitness : List Nat → ℚ) : List (List Nat) → List Nat
  | [] => []
  | x :: xs => xs.foldl (fun b y => if fitness b < fitness y then y else b) x

/-- Append one migrant to deme `j` (`np_w_migrants[j].push_back(b)`). -/
def push_to (np : List (List (List Nat))) (j : Nat) (b : List Nat) :
    List (List (List Nat)) :=
  np.set j (np.getD j [] ++ [b])

/-- Ranked-replacement migration event of `ep` (generic_ga.cpp lines 64-99,
`random_replace = false` branch): each deme is sorted by fitness ascending and
its first two elements (the two worst) are dropped; then the best individual of
each shrunken deme is appended to both of its ring neighbours. -/
def migration_ranked (fitness : List Nat → ℚ) (demes : List (List (List Nat))) :
    List (List (List Nat)) :=
  (List.range (demes.map (fun d => (sort_by_fitness fitness d).drop 2)).length).foldl
    (fun np i =>
      push_to
        (push_to np
          ((i + 1) % (demes.map (fun d => (sort_by_fitness fitness d).drop 2)).length)
          (max_element_by fitness
            ((demes.map (fun d => (sort_by_fitness fitness d).drop 2)).getD i [])))
        ((i + (demes.map (fun d => (sort_by_fitness fitness d).drop 2)).length - 1) %
          (demes.map (fun d => (sort_by_fitness fitness d).drop 2)).length)
        (max_element_by fitness
          ((demes.map (fun d => (sort_by_fitness fitness d).drop 2)).getD i [])))
    (demes.map (fun d => (sort_by_fitness fitness d).drop 2))

/-! Helper lemmas. -/

/-- Reading an updated position of a list through `getD`. -/
lemma getD_set_self {α : Type} {d : α} {l : List α} {i : Nat} (v : α) (h : i < l.length) :
    (l.set i v).getD i d = v := by
  rw [List.getD_eq_getElem _ _ (by simpa using h)]
  exact List.getElem_set_self _

/-- Reading an untouched position of a list through `getD`. -/
lemma getD_set_ne {α : Type} {d : α} {l : List α} {i j : Nat} (v : α) (h : i ≠ j) :
    (l.set i v).getD j d = l.getD j d := by
  rcases Nat.lt_or_ge j l.length with hj | hj
  · rw [List.getD_eq_getElem _ _ (by simpa using hj), List.getD_eq_getElem _ _ hj]
    exact List.getElem_set_ne h _
  · rw [List.getD_eq_default _ _ (by simpa using hj), List.getD_eq_default _ _ hj]

/-- Two lists of equal length agreeing through `getD` are equal. -/
lemma list_eq_of_getD {l1 l2 : List Nat} (hl : l1.length = l2.length)
    (h : ∀ j, j < l1.length → l1.getD j 0 = l2.getD j 0) : l1 = l2 := by
  apply List.ext_getElem hl
  intro j h1 h2
  have hj := h j h1
  rwa [List.getD_eq_getElem _ _ h1, List.getD_eq_getElem _ _ h2] at hj

/-- A fold that appends blocks equals the flat map of the blocks. -/
lemma foldl_append_flatMap {α β : Type} (f : β → List α) :
    ∀ (l : List β) (acc : List α),
      l.foldl (fun r i => r ++ f i) acc = acc ++ l.flatMap f
  | [], acc => by simp
  | b :: t, acc => by
    rw [List.foldl_cons, foldl_append_flatMap f t (acc ++ f b), List.flatMap_cons,
      List.append_assoc]

/-- Characterization of the crossover overwriting loop: with enough fuel it
swaps in the genes of the positions in `[i, stop)` and keeps the rest. -/
lemma xover_loop_spec (a b : Genes) (stop : Nat) :
    ∀ (fuel i : Nat) (na nb : Genes), stop ≤ na.length → stop ≤ nb.length →
      stop ≤ i + fuel →
      (xover_loop a b stop fuel i (na, nb)).1.length = na.length ∧
      (xover_loop a b stop fuel i (na, nb)).2.length = nb.length ∧
      (∀ j, (xover_loop a b stop fuel i (na, nb)).1.getD j 0 =
        if i ≤ j ∧ j < stop then b.getD j 0 else na.getD j 0) ∧
      (∀ j, (xover_loop a b stop fuel i (na, nb)).2.getD j 0 =
        if i ≤ j ∧ j < stop then a.getD j 0 else nb.getD j 0)
  | 0, i, na, nb, ha, hb, hfuel => by
    rw [xover_loop]
    refine ⟨rfl, rfl, fun j => ?_, fun j => ?_⟩ <;>
      rw [if_neg (fun hj => absurd hfuel (by omega))]
  | fuel+1, i, na, nb, ha, hb, hfuel => by
    by_cases hi : i < stop
    · have hrec := xover_loop_spec a b stop fuel (i+1)
        (na.set i (b.getD i 0)) (nb.set i (a.getD i 0))
        (by simpa using ha) (by simpa using hb) (by omega)
      rw [xover_loop, if_pos hi]
      refine ⟨by rw [hrec.1, List.length_set], by rw [hrec.2.1, List.length_set],
        fun j => ?_, fun j => ?_⟩
      · rw [hrec.2.2.1 j]
        by_cases hij : i + 1 ≤ j ∧ j < stop
        · rw [if_pos hij, if_pos ⟨by omega, hij.2⟩]
        · by_cases hj : j = i
          · subst hj
            rw [if_neg hij, if_pos ⟨le_refl j, hi⟩, getD_set_self _ (by omega)]
          · rw [if_neg hij, if_neg (fun hc => hij ⟨by omega, hc.2⟩),
              getD_set_ne _ (fun hc => hj hc.symm)]
      · rw [hrec.2.2.2 j]
        by_cases hij : i + 1 ≤ j ∧ j < stop
        · rw [if_pos hij, if_pos ⟨by omega, hij.2⟩]
        · by_cases hj : j = i
          · subst hj
            rw [if_neg hij, if_pos ⟨le_refl j, hi⟩, getD_set_self _ (by omega)]
          · rw [if_neg hij, if_neg (fun hc => hij ⟨by omega, hc.2⟩),
              getD_set_ne _ (fun hc => hj hc.symm)]
    · rw [xover_loop, if_neg hi]
      refine ⟨rfl, rfl, fun j => ?_, fun j => ?_⟩ <;>
        rw [if_neg (fun hj => hi (by omega))]

/-- Correctness of the factoradic decoding step: genes within their positional
bounds select a rearrangement of the remaining numbers. -/
lemma decode_step_perm :
    ∀ (genes numbers : List Nat), genes.length = numbers.length →
      (∀ i, i < genes.length → genes.getD i 0 < numbers.length - i) →
      List.Perm (decode_step genes numbers) numbers
  | [], numbers, hlen, _ => by
    rw [List.length_eq_zero.mp hlen.symm]
    exact List.Perm.refl _
  | g :: gs, numbers, hlen, hbound => by
    have hg : g < numbers.length := by
      have := hbound 0 (by simp)
      simpa using this
    have herase : (numbers.eraseIdx g).length = numbers.length - 1 := by
      rw [List.length_eraseIdx]
      simp [hg]
    have hrec : List.Perm (decode_step gs (numbers.eraseIdx g)) (numbers.eraseIdx g) := by
      refine decode_step_perm gs (numbers.eraseIdx g) (by rw [herase]; simp at hlen; omega) ?_
      intro i hi
      rw [herase]
      have := hbound (i+1) (by simp at hi ⊢; omega)
      simp only [List.getD_cons_succ] at this
      omega
    have hsplit : numbers.take g ++ numbers.getD g 0 :: numbers.drop (g+1) = numbers := by
      rw [List.getD_eq_getElem _ _ hg, ← List.drop_eq_getElem_cons hg,
        List.take_append_drop]
    have hperm : List.Perm (numbers.getD g 0 :: numbers.eraseIdx g) numbers := by
      rw [List.eraseIdx_eq_take_drop_succ]
      have h1 : List.Perm (numbers.getD g 0 :: (numbers.take g ++ numbers.drop (g+1)))
          (numbers.take g ++ numbers.getD g 0 :: numbers.drop (g+1)) :=
        List.perm_middle.symm
      rw [hsplit] at h1
      exact h1
    exact List.Perm.trans (List.Perm.cons _ hrec) hperm

/-- Splitting a list at the first occurrence of a member. -/
lemma first_idx_split {α : Type} [DecidableEq α] (a : α) :
    ∀ (l : List α), a ∈ l →
      l.take (first_idx a l) ++ a :: l.drop (first_idx a l + 1) = l
  | [], h => absurd h (List.not_mem_nil a)
  | b :: t, h => by
    by_cases hab : a = b
    · simp [first_idx, hab]
    · have hat : a ∈ t := by
        rcases List.mem_cons.mp h with h1 | h1
        · exact absurd h1 hab
        · exact h1
      have hrec := first_idx_split a t hat
      simp only [first_idx, if_neg hab, List.take_succ_cons, List.drop_succ_cons,
        List.cons_append]
      rw [hrec]

/-- The visit sequence of the brute force loop is a rearrangement of the full
permutation list. -/
lemma brute_visited_perm (start : List Nat) :
    List.Perm (brute_visited start) start.permutations := by
  have hmem : start ∈ start.permutations := List.mem_permutations.mpr (List.Perm.refl start)
  have hsplit := first_idx_split start start.permutations hmem
  have h1 : brute_visited start =
      (start.permutations.drop (first_idx start start.permutations + 1) ++
        start.permutations.take (first_idx start start.permutations)) ++ [start] := by
    rw [brute_visited, List.append_assoc]
  rw [h1]
  refine List.Perm.trans (List.perm_append_singleton _ _) ?_
  refine List.Perm.trans (List.Perm.cons _ List.perm_append_comm) ?_
  refine List.Perm.trans List.perm_middle.symm ?_
  rw [hsplit]

/-- The incumbent fold of the brute force loop returns an element of the pool
(or the start) whose goal value beats the start and every element visited. -/
lemma foldl_improve_spec (goal : List Nat → ℚ) :
    ∀ (l : List (List Nat)) (init : List Nat),
      (l.foldl (improve goal) init = init ∨ l.foldl (improve goal) init ∈ l) ∧
      goal (l.foldl (improve goal) init) ≤ goal init ∧
      ∀ x ∈ l, goal (l.foldl (improve goal) init) ≤ goal x
  | [], init => ⟨Or.inl rfl, le_refl _, fun x hx => absurd hx (List.not_mem_nil x)⟩
  | c :: t, init => by
    have hrec := foldl_improve_spec goal t (improve goal init c)
    rw [List.foldl_cons]
    have hle : goal (improve goal init c) ≤ goal init := by
      rw [improve]
      by_cases h : goal c < goal init
      · rw [if_pos h]; exact le_of_lt h
      · rw [if_neg h]
    have hlec : goal (improve goal init c) ≤ goal c := by
      rw [improve]
      by_cases h : goal c < goal init
      · rw [if_pos h]
      · rw [if_neg h]; exact le_of_not_lt h
    refine ⟨?_, le_trans hrec.2.1 hle, fun x hx => ?_⟩
    · rcases hrec.1 with h1 | h1
      · rw [h1, improve]
        by_cases h : goal c < goal init
        · rw [if_pos h]; exact Or.inr (List.mem_cons_self c t)
        · rw [if_neg h]; exact Or.inl rfl
      · exact Or.inr (List.mem_cons_of_mem c h1)
    · rcases List.mem_cons.mp hx with h1 | h1
      · rw [h1]; exact le_trans hrec.2.1 hlec
      · exact hrec.2.2 x h1

/-- Distance-like objective used to instantiate the abstract goal function in
the concrete witnesses below. -/
def example_goal : List Nat → ℚ :=
  fun l => ((l.getD 0 0 * 4 + l.getD 1 0 * 2 + l.getD 2 0 : Nat) : ℚ)

/-- C1: for every problem with at least one city, `brute_force_find_solution`
returns a tour that is a permutation of the city indices and whose goal value
is less than or equal to the goal value of every permutation of the city list:
the do-while loop walks the successor cycle through all permutations starting
from the initial ordering, updates the best only on strict improvement, and
stops exactly when the successor returns to the starting permutation. -/
theorem brute_force_finds_global_optimum (goal : List Nat → ℚ) (n : Nat) (h : 1 ≤ n) :
    List.Perm (brute_force_find_solution goal (List.range n)) (List.range n) ∧
    ∀ p, List.Perm p (List.range n) →
      goal (brute_force_find_solution goal (List.range n)) ≤ goal p := by
  have hspec := foldl_improve_spec goal (brute_visited (List.range n)) (List.range n)
  have hperm := brute_visited_perm (List.range n)
  constructor
  · rcases hspec.1 with h1 | h1
    · rw [brute_force_find_solution, h1]
    · rw [brute_force_find_solution]
      exact List.mem_permutations.mp (hperm.mem_iff.mp h1)
  · intro p hp
    have hpmem : p ∈ (List.range n).permutations := List.mem_permutations.mpr hp
    exact hspec.2.2 p (hperm.mem_iff.mpr hpmem)

/-- Witness for C1 at the concrete three-city instance. -/
theorem brute_force_finds_global_optimum_witness :
    1 ≤ 3 ∧
    (List.Perm (brute_force_find_solution example_goal (List.range 3)) (List.range 3) ∧
     ∀ p, List.Perm p (List.range 3) →
       example_goal (brute_force_find_solution example_goal (List.range 3)) ≤ example_goal p) :=
  ⟨by decide, brute_force_finds_global_optimum example_goal 3 (by decide)⟩

/-- C9: when the two drawn cut points of two point crossover coincide, the
swapped half open segment is empty and both children equal their parents. -/
theorem crossover_two_point_equal_cuts_identity (c : Nat) (a b : Genes) :
    crossover_two_point c c a b = (a, b) := by
  rw [crossover_two_point, Nat.max_self, Nat.min_self]
  cases c with
  | zero => rfl
  | succ m => rw [xover_loop, if_neg (lt_irrefl (m+1))]

/-- C8: for well-formed parents of equal length, one point crossover at cut
index 0 returns the swapped parents, and at cut index `n-1` (the last position,
whose gene is forced to 0 by well-formedness) it returns the original parents. -/
theorem crossover_one_point_boundary_cuts (a b : Genes)
    (ha : WFgenes a) (hb : WFgenes b) (hlen : a.length = b.length) :
    crossover_one_point 0 a b = (b, a) ∧
    crossover_one_point (a.length - 1) a b = (a, b) := by
  constructor
  · have hs := xover_loop_spec a b a.length a.length 0 a b (le_refl _)
      (le_of_eq hlen) (by omega)
    rw [crossover_one_point]
    have h1 : (xover_loop a b a.length a.length 0 (a, b)).1 = b := by
      apply list_eq_of_getD (by rw [hs.1, hlen])
      intro j hj
      rw [hs.1] at hj
      rw [hs.2.2.1 j, if_pos ⟨Nat.zero_le j, hj⟩]
    have h2 : (xover_loop a b a.length a.length 0 (a, b)).2 = a := by
      apply list_eq_of_getD (by rw [hs.2.1, hlen])
      intro j hj
      rw [hs.2.1, ← hlen] at hj
      rw [hs.2.2.2 j, if_pos ⟨Nat.zero_le j, hj⟩]
    exact Prod.ext h1 h2
  · have hs := xover_loop_spec a b a.length a.length (a.length - 1) a b (le_refl _)
      (le_of_eq hlen) (by omega)
    rw [crossover_one_point]
    have h1 : (xover_loop a b a.length a.length (a.length - 1) (a, b)).1 = a := by
      apply list_eq_of_getD hs.1
      intro j hj
      rw [hs.1] at hj
      rw [hs.2.2.1 j]
      by_cases hcase : a.length - 1 ≤ j ∧ j < a.length
      · rw [if_pos hcase]
        have hj2 : j = a.length - 1 := by omega
        have hbj := hb j (by rw [← hlen]; exact hj)
        have haj := ha j hj
        rw [← hlen] at hbj
        omega
      · rw [if_neg hcase]
    have h2 : (xover_loop a b a.length a.length (a.length - 1) (a, b)).2 = b := by
      apply list_eq_of_getD hs.2.1
      intro j hj
      rw [hs.2.1, ← hlen] at hj
      rw [hs.2.2.2 j]
      by_cases hcase : a.length - 1 ≤ j ∧ j < a.length
      · rw [if_pos hcase]
        have hbj := hb j (by rw [← hlen]; exact hj)
        have haj := ha j hj
        rw [← hlen] at hbj
        omega
      · rw [if_neg hcase]
    exact Prod.ext h1 h2

/-- Witness for C8 on concrete well-formed three-gene parents. -/
theorem crossover_one_point_boundary_cuts_witness :
    crossover_one_point 0 [2, 1, 0] [1, 1, 0] = ([1, 1, 0], [2, 1, 0]) ∧
    crossover_one_point ([2, 1, 0].length - 1) [2, 1, 0] [1, 1, 0] = ([2, 1, 0], [1, 1, 0]) :=
  crossover_one_point_boundary_cuts [2, 1, 0] [1, 1, 0] (by decide) (by decide) (by decide)

/-- C2: for well-formed alternatives (every gene within its positional bound),
one point crossover, two point crossover and the descending single gene
mutation (with draws in the C++ ranges) produce well-formed alternatives
again, and decoding a well-formed alternative yields a tour in which every
index in `[0, n)` appears exactly once. -/
theorem factoradic_operators_preserve_validity (a b : Genes) (cut c1 c2 : Nat)
    (pm u : ℚ) (mut_point new_gene : Nat)
    (ha : WFgenes a) (hb : WFgenes b) (hlen : a.length = b.length)
    (hc1 : c1 < a.length) (hc2 : c2 < a.length)
    (hmp : mut_point + 1 < a.length) (hnv : new_gene + mut_point < a.length) :
    WFgenes (crossover_one_point cut a b).1 ∧
    WFgenes (crossover_one_point cut a b).2 ∧
    WFgenes (crossover_two_point c1 c2 a b).1 ∧
    WFgenes (crossover_two_point c1 c2 a b).2 ∧
    WFgenes (mutation_change_one_city_descending pm u mut_point new_gene a) ∧
    List.Perm (decode a) (List.range a.length) := by
  have hs1 := xover_loop_spec a b a.length a.length cut a b (le_refl _)
    (le_of_eq hlen) (by omega)
  have hs2 := xover_loop_spec a b (max c1 c2) (max c1 c2) (min c1 c2) a b
    (by omega) (by omega) (by omega)
  refine ⟨?_, ?_, ?_, ?_, ?_, ?_⟩
  · intro j hj
    rw [crossover_one_point] at hj ⊢
    rw [hs1.1] at hj ⊢
    rw [hs1.2.2.1 j]
    by_cases hcase : cut ≤ j ∧ j < a.length
    · rw [if_pos hcase]
      have hbj := hb j (by rw [← hlen]; exact hj)
      rw [← hlen] at hbj
      exact hbj
    · rw [if_neg hcase]
      exact ha j hj
  · intro j hj
    rw [crossover_one_point] at hj ⊢
    rw [hs1.2.1, ← hlen] at hj ⊢
    rw [hs1.2.2.2 j]
    by_cases hcase : cut ≤ j ∧ j < a.length
    · rw [if_pos hcase]
      exact ha j hj
    · rw [if_neg hcase]
      have hbj := hb j (by rw [← hlen]; exact hj)
      rw [← hlen] at hbj
      exact hbj
  · intro j hj
    rw [crossover_two_point] at hj ⊢
    rw [hs2.1] at hj ⊢
    rw [hs2.2.2.1 j]
    by_cases hcase : min c1 c2 ≤ j ∧ j < max c1 c2
    · rw [if_pos hcase]
      have hbj := hb j (by rw [← hlen]; exact hj)
      rw [← hlen] at hbj
      exact hbj
    · rw [if_neg hcase]
      exact ha j hj
  · intro j hj
    rw [crossover_two_point] at hj ⊢
    rw [hs2.2.1, ← hlen] at hj ⊢
    rw [hs2.2.2.2 j]
    by_cases hcase : min c1 c2 ≤ j ∧ j < max c1 c2
    · rw [if_pos hcase]
      exact ha j hj
    · rw [if_neg hcase]
      have hbj := hb j (by rw [← hlen]; exact hj)
      rw [← hlen] at hbj
      exact hbj
  · rw [mutation_change_one_city_descending]
    by_cases hu : u < pm
    · rw [if_pos hu]
      intro j hj
      rw [List.length_set] at hj ⊢
      by_cases hj2 : j = mut_point
      · subst hj2
        rw [getD_set_self _ (by omega)]
        omega
      · rw [getD_set_ne _ (fun hc => hj2 hc.symm)]
        exact ha j hj
    · rw [if_neg hu]
      exact ha
  · refine decode_step_perm a (List.range a.length) (by simp) ?_
    intro i hi
    rw [List.length_range]
    exact ha i hi

/-- Witness for C2 on concrete well-formed three-gene alternatives. -/
theorem factoradic_operators_preserve_validity_witness :
    WFgenes (crossover_one_point 1 [2, 1, 0] [1, 1, 0]).1 ∧
    WFgenes (crossover_one_point 1 [2, 1, 0] [1, 1, 0]).2 ∧
    WFgenes (crossover_two_point 2 0 [2, 1, 0] [1, 1, 0]).1 ∧
    WFgenes (crossover_two_point 2 0 [2, 1, 0] [1, 1, 0]).2 ∧
    WFgenes (mutation_change_one_city_descending 1 0 0 2 [2, 1, 0]) ∧
    List.Perm (decode [2, 1, 0]) (List.range [2, 1, 0].length) :=
  factoradic_operators_preserve_validity [2, 1, 0] [1, 1, 0] 1 2 0 1 0 0 2
    (by decide) (by decide) (by decide) (by decide) (by decide) (by decide) (by decide)

/-- A list ending in two equal elements is not duplicate free. -/
lemma not_nodup_append_pair {α : Type} (l : List α) (x : α) : ¬ (l ++ [x, x]).Nodup := by
  intro h
  have hx := (List.sublist_append_right l [x, x]).nodup h
  simp at hx

/-- C10: `generate_neighbours` emits, for each position `i = 0 .. L-2` in
ascending order, the incremented variant and then the decremented variant
modulo the positional bound `L - i`; at the final position `L-2` the bound is
2, the two variants coincide, and hence the emitted neighbour list always
contains a duplicate pair. -/
theorem generate_neighbours_order_and_duplicate (s : Genes) (h2 : 2 ≤ s.length) :
    generate_neighbours s =
      (List.range (s.length - 1)).flatMap (fun i =>
        [s.set i ((s.getD i 0 + 1) % (s.length - i)),
         s.set i ((s.getD i 0 + (s.length - i) - 1) % (s.length - i))]) ∧
    s.set (s.length - 2) ((s.getD (s.length - 2) 0 + 1) % (s.length - (s.length - 2))) =
      s.set (s.length - 2)
        ((s.getD (s.length - 2) 0 + (s.length - (s.length - 2)) - 1) %
          (s.length - (s.length - 2))) ∧
    ¬ (generate_neighbours s).Nodup := by
  have hchar : generate_neighbours s =
      (List.range (s.length - 1)).flatMap (fun i =>
        [s.set i ((s.getD i 0 + 1) % (s.length - i)),
         s.set i ((s.getD i 0 + (s.length - i) - 1) % (s.length - i))]) := by
    rw [generate_neighbours, foldl_append_flatMap, List.nil_append]
  have hb : s.length - (s.length - 2) = 2 := by omega
  have harith : s.getD (s.length - 2) 0 + 2 - 1 = s.getD (s.length - 2) 0 + 1 := by omega
  refine ⟨hchar, by rw [hb, harith], ?_⟩
  have hr : s.length - 1 = (s.length - 2) + 1 := by omega
  rw [hchar, hr, List.range_succ, List.flatMap_append, List.flatMap_cons, List.flatMap_nil,
    List.append_nil, hb, harith]
  exact not_nodup_append_pair _ _

/-- Witness for C10 on a concrete two-gene alternative. -/
theorem generate_neighbours_order_and_duplicate_witness :
    ¬ (generate_neighbours [1, 0]).Nodup :=
  (generate_neighbours_order_and_duplicate [1, 0] (by decide)).2.2

/-- The last element of a nonempty list does not depend on the default. -/
lemma getLastD_congr {α : Type} (l : List α) (d1 d2 : α) (h : l ≠ []) :
    l.getLastD d1 = l.getLastD d2 := by
  cases l with
  | nil => exact absurd rfl h
  | cons a t => rw [List.getLastD_cons, List.getLastD_cons]

/-- C6: deterministic hill climbing starts at the given solution, its visited
goal values strictly decrease (in particular they are monotone non-increasing)
across iterations, it performs at most the configured budget of iterations
(trace length at most budget plus one), and whenever it stops before
exhausting the budget the best candidate of the full neighbour set of the
returned solution is not strictly better than that solution. -/
theorem hillclimb_deteriministic_monotone_budget_early_exit
    (goal : Genes → ℚ) (it : Nat) (s : Genes) :
    (hc_trace goal it s).head? = some s ∧
    List.Chain' (fun x y => goal y < goal x) (hc_trace goal it s) ∧
    List.Chain' (fun x y => goal y ≤ goal x) (hc_trace goal it s) ∧
    (hc_trace goal it s).length ≤ it + 1 ∧
    ((hc_trace goal it s).length ≤ it →
      ¬ goal (current_best goal (generate_neighbours (hillclimb_deteriministic goal it s))) <
        goal (hillclimb_deteriministic goal it s)) := by
  induction it generalizing s with
  | zero =>
    refine ⟨rfl, List.chain'_singleton s, List.chain'_singleton s, by simp [hc_trace], ?_⟩
    intro hlen
    simp [hc_trace] at hlen
  | succ it ih =>
    by_cases h : goal (current_best goal (generate_neighbours s)) < goal s
    · have ihcb := ih (current_best goal (generate_neighbours s))
      have htr : hc_trace goal (it+1) s =
          s :: hc_trace goal it (current_best goal (generate_neighbours s)) := by
        rw [hc_trace, if_pos h]
      rw [hillclimb_deteriministic, htr]
      refine ⟨by simp, ?_, ?_, ?_, ?_⟩
      · rw [List.chain'_cons']
        refine ⟨?_, ihcb.2.1⟩
        intro b hb
        rw [ihcb.1] at hb
        rw [← Option.mem_some_iff.mp hb]
        exact h
      · rw [List.chain'_cons']
        refine ⟨?_, ihcb.2.2.1⟩
        intro b hb
        rw [ihcb.1] at hb
        rw [← Option.mem_some_iff.mp hb]
        exact le_of_lt h
      · simp only [List.length_cons]
        have := ihcb.2.2.2.1
        omega
      · intro hlen
        simp only [List.length_cons] at hlen
        have hlen2 : (hc_trace goal it (current_best goal (generate_neighbours s))).length ≤ it := by
          omega
        have hne : hc_trace goal it (current_best goal (generate_neighbours s)) ≠ [] := by
          intro hc
          have hh := ihcb.1
          rw [hc] at hh
          simp at hh
        rw [List.getLastD_cons,
          getLastD_congr _ s (current_best goal (generate_neighbours s)) hne]
        have hres := ihcb.2.2.2.2 hlen2
        rw [hillclimb_deteriministic] at hres
        exact hres
    · have htr : hc_trace goal (it+1) s = [s] := by
        rw [hc_trace, if_neg h]
      rw [hillclimb_deteriministic, htr]
      refine ⟨rfl, List.chain'_singleton s, List.chain'_singleton s, by simp, ?_⟩
      intro hlen
      simpa using h

/-- Witness for C6 at a concrete goal, budget and start. -/
theorem hillclimb_deteriministic_monotone_budget_early_exit_witness :
    (hc_trace example_goal 2 [1, 0]).head? = some [1, 0] ∧
    List.Chain' (fun x y => example_goal y < example_goal x) (hc_trace example_goal 2 [1, 0]) ∧
    List.Chain' (fun x y => example_goal y ≤ example_goal x) (hc_trace example_goal 2 [1, 0]) ∧
    (hc_trace example_goal 2 [1, 0]).length ≤ 2 + 1 ∧
    ((hc_trace example_goal 2 [1, 0]).length ≤ 2 →
      ¬ example_goal (current_best example_goal
          (generate_neighbours (hillclimb_deteriministic example_goal 2 [1, 0]))) <
        example_goal (hillclimb_deteriministic example_goal 2 [1, 0])) :=
  hillclimb_deteriministic_monotone_budget_early_exit example_goal 2 [1, 0]

/-- C7: whenever tabu search reaches a state in which every generated
neighbour of the most recent list entry is tabu (the filtered candidate set is
empty) and the tabu list holds exactly one entry, it terminates immediately
and returns the best known incumbent: a defined early exit, not an error. -/
theorem tabusearch_exhausted_escape (goal : Genes → ℚ) (max_tabu_size it : Nat)
    (tabu_list : List Genes) (global_best : Genes)
    (hlen : tabu_list.length = 1)
    (hfil : tabu_filter tabu_list (generate_neighbours (tabu_list.getLastD [])) = []) :
    tabusearch goal max_tabu_size it tabu_list global_best = global_best := by
  cases it with
  | zero => rfl
  | succ it =>
    rw [tabusearch, hfil]
    rw [if_pos (by rw [List.isEmpty_nil])]
    rw [if_neg (by omega)]

/-- Witness for C7: a one-city alternative has no neighbours, so with a single
tabu entry the search returns the incumbent at once. -/
theorem tabusearch_exhausted_escape_witness :
    tabusearch example_goal 50 7 [[0]] [1, 0] = [1, 0] :=
  tabusearch_exhausted_escape example_goal 50 7 [[0]] [1, 0] (by decide) (by decide)

/-- The mutation loop only ever touches the even index of each visited pair:
with the counter starting even, every odd position of the children is returned
unchanged, whatever the draws are. -/
lemma mut_loop_even_only (n : Nat) (pm : ℚ) (mutf : Genes → Genes) (draws : Nat → ℚ) :
    ∀ (fuel i : Nat) (children : List Genes) (j : Nat), i % 2 = 0 → j % 2 = 1 →
      (mut_loop n pm mutf draws fuel i children).getD j [] = children.getD j []
  | 0, i, children, j, hi, hj => rfl
  | fuel+1, i, children, j, hi, hj => by
    rw [mut_loop]
    by_cases hin : i + 1 < n
    · rw [if_pos hin]
      rw [mut_loop_even_only n pm mutf draws fuel (i+2) _ j (by omega) hj]
      by_cases hd : pm < draws i
      · rw [if_pos hd, getD_set_ne _ (by omega)]
      · rw [if_neg hd]
    · rw [if_neg hin]

/-- The mutation loop mutates nothing when every draw is at most the mutation
probability, because its guard is `pm < u`. -/
lemma mut_loop_id_of_draws_le (n : Nat) (pm : ℚ) (mutf : Genes → Genes) (draws : Nat → ℚ)
    (h : ∀ k, draws k ≤ pm) :
    ∀ (fuel i : Nat) (children : List Genes),
      mut_loop n pm mutf draws fuel i children = children
  | 0, _, children => rfl
  | fuel+1, i, children => by
    rw [mut_loop]
    by_cases hin : i + 1 < n
    · rw [if_pos hin, if_neg (not_lt.mpr (h i)),
        mut_loop_id_of_draws_le n pm mutf draws h fuel (i+2) children]
    · rw [if_neg hin]

/-- C3 (against the code): in the generational loop of `genetic_algorithm`,
mutation is NOT applied independently to each child with the configured
probability: the loop steps its index by two, so children at odd indices are
never mutated, and its guard is `mutation_probability < u`, so no child at all
is mutated when every uniform draw is at most the mutation probability — the
opposite of the documented gate. -/
theorem genetic_algorithm_mutation_loop_bug (n : Nat) (pm : ℚ) (mutf : Genes → Genes)
    (draws : Nat → ℚ) (children : List Genes) :
    (∀ j, j % 2 = 1 →
      (mut_loop n pm mutf draws n 0 children).getD j [] = children.getD j []) ∧
    ((∀ k, draws k ≤ pm) → mut_loop n pm mutf draws n 0 children = children) :=
  ⟨fun j hj => mut_loop_even_only n pm mutf draws n 0 children j rfl hj,
   fun h => mut_loop_id_of_draws_le n pm mutf draws h n 0 children⟩

/-- Witness for C3: a four-child generation in which the draws ask for
mutation at every index, yet child 1 is untouched; and a generation in which
every draw is below the probability, yet nothing at all is mutated. -/
theorem genetic_algorithm_mutation_loop_bug_witness :
    (mut_loop 4 0 (fun g => 9 :: g) (fun _ => 1) 4 0 [[0], [1], [2], [3]]).getD 1 [] =
      [[0], [1], [2], [3]].getD 1 [] ∧
    mut_loop 4 1 (fun g => 9 :: g) (fun _ => 0) 4 0 [[0], [1], [2], [3]] =
      [[0], [1], [2], [3]] :=
  ⟨(genetic_algorithm_mutation_loop_bug 4 0 (fun g => 9 :: g) (fun _ => 1)
      [[0], [1], [2], [3]]).1 1 rfl,
   (genetic_algorithm_mutation_loop_bug 4 1 (fun g => 9 :: g) (fun _ => 0)
      [[0], [1], [2], [3]]).2 (fun k => zero_le_one)⟩

/-- The crossover loop appends exactly two children per visited pair, so with
enough fuel it yields `2 * ((n - i) / 2)` children past the accumulator. -/
lemma cross_loop_length (n : Nat) (pc : ℚ) (crossf : Genes → Genes → Genes × Genes)
    (draws : Nat → ℚ) (parents : List Genes) :
    ∀ (fuel i : Nat) (children : List Genes), n ≤ i + 2 * fuel →
      (cross_loop n pc crossf draws parents fuel i children).length
        = children.length + 2 * ((n - i) / 2)
  | 0, i, children, hfuel => by
    rw [cross_loop]
    have h0 : (n - i) / 2 = 0 := by omega
    rw [h0]
    omega
  | fuel+1, i, children, hfuel => by
    rw [cross_loop]
    by_cases hin : i + 1 < n
    · rw [if_pos hin]
      by_cases hd : pc < draws i
      · rw [if_pos hd,
          cross_loop_length n pc crossf draws parents fuel (i+2) _ (by omega)]
        simp only [List.length_append, List.length_cons, List.length_nil]
        omega
      · rw [if_neg hd,
          cross_loop_length n pc crossf draws parents fuel (i+2) _ (by omega)]
        simp only [List.length_append, List.length_cons, List.length_nil]
        omega
    · rw [if_neg hin]
      have h0 : (n - i) / 2 = 0 := by omega
      rw [h0]
      omega

/-- The mutation loop never changes the number of children. -/
lemma mut_loop_length (n : Nat) (pm : ℚ) (mutf : Genes → Genes) (draws : Nat → ℚ) :
    ∀ (fuel i : Nat) (children : List Genes),
      (mut_loop n pm mutf draws fuel i children).length = children.length
  | 0, _, _ => rfl
  | fuel+1, i, children => by
    rw [mut_loop]
    by_cases hin : i + 1 < n
    · rw [if_pos hin, mut_loop_length n pm mutf draws fuel (i+2) _]
      by_cases hd : pm < draws i
      · rw [if_pos hd, List.length_set]
      · rw [if_neg hd]
    · rw [if_neg hin]

/-- One generation always produces `2 * (n / 2)` children, whatever the
incoming population size. -/
lemma genetic_algorithm_generation_length (n : Nat) (sel : Nat → Nat) (pc pm : ℚ)
    (crossf : Genes → Genes → Genes × Genes) (cd md : Nat → ℚ) (mutf : Genes → Genes)
    (population : List Genes) :
    (genetic_algorithm_generation n sel pc pm crossf cd md mutf population).length
      = 2 * (n / 2) := by
  rw [genetic_algorithm_generation, mut_loop_length,
    cross_loop_length n pc crossf cd _ n 0 [] (by omega)]
  simp

/-- After at least one generation the population size is `2 * (n / 2)`. -/
lemma genetic_algorithm_run_succ_length (n : Nat) (sel : Nat → Nat → Nat) (pc pm : ℚ)
    (crossf : Genes → Genes → Genes × Genes) (cd md : Nat → Nat → ℚ) (mutf : Genes → Genes) :
    ∀ (k : Nat) (population : List Genes),
      (genetic_algorithm_run n sel pc pm crossf cd md mutf (k+1) population).length
        = 2 * (n / 2)
  | 0, population => by
    rw [genetic_algorithm_run, genetic_algorithm_run]
    exact genetic_algorithm_generation_length n (sel 0) pc pm crossf (cd 0) (md 0) mutf _
  | k+1, population => by
    rw [genetic_algorithm_run]
    exact genetic_algorithm_run_succ_length n sel pc pm crossf cd md mutf k _

/-- C4 (amended): after every generation the population holds `2 * (N / 2)`
individuals — exactly `N` when `N` is even, but `N - 1` when `N` is odd,
because the pairing loop `i < N-1, i += 2` drops the last selected parent. -/
theorem genetic_algorithm_population_size_even_floor (n : Nat) (sel : Nat → Nat → Nat)
    (pc pm : ℚ) (crossf : Genes → Genes → Genes × Genes) (cd md : Nat → Nat → ℚ)
    (mutf : Genes → Genes) (k : Nat) (population : List Genes) (hk : 1 ≤ k) :
    (genetic_algorithm_run n sel pc pm crossf cd md mutf k population).length
      = 2 * (n / 2) := by
  cases k with
  | zero => exact absurd hk (by omega)
  | succ m => exact genetic_algorithm_run_succ_length n sel pc pm crossf cd md mutf m population

/-- Witness for the amended C4 on a concrete even-size run. -/
theorem genetic_algorithm_population_size_even_floor_witness :
    (genetic_algorithm_run 4 (fun _ _ => 0) 0 0 (fun a b => (a, b)) (fun _ _ => 1)
      (fun _ _ => 1) id 2 [[0, 0], [1, 0], [0, 0], [1, 0]]).length = 2 * (4 / 2) :=
  genetic_algorithm_population_size_even_floor 4 (fun _ _ => 0) 0 0 (fun a b => (a, b))
    (fun _ _ => 1) (fun _ _ => 1) id 2 [[0, 0], [1, 0], [0, 0], [1, 0]] (by decide)

/-- Counterexample to C4 as stated: a run with an odd initial population of
three individuals holds only two individuals after one generation. -/
theorem genetic_algorithm_population_size_counterexample :
    ([[0, 0], [1, 0], [0, 0]] : List Genes).length = 3 ∧
    (genetic_algorithm_run 3 (fun _ _ => 0) 0 0 (fun a b => (a, b)) (fun _ _ => 1)
      (fun _ _ => 1) id 1 [[0, 0], [1, 0], [0, 0]]).length = 2 ∧
    ¬ ((genetic_algorithm_run 3 (fun _ _ => 0) 0 0 (fun a b => (a, b)) (fun _ _ => 1)
      (fun _ _ => 1) id 1 [[0, 0], [1, 0], [0, 0]]).length = 3) := by
  refine ⟨rfl, by decide, by decide⟩

/-- Pushing a migrant keeps the number of demes. -/
lemma push_to_outer_length (np : List (List (List Nat))) (j : Nat) (b : List Nat) :
    (push_to np j b).length = np.length :=
  List.length_set np j _

/-- Pushing a migrant adds one individual to the target deme and leaves the
others unchanged. -/
lemma push_to_getD_len (np : List (List (List Nat))) (j : Nat) (b : List Nat) (k : Nat)
    (hj : j < np.length) :
    ((push_to np j b).getD k []).length
      = ((np.getD k []).length) + (if j = k then 1 else 0) := by
  by_cases hjk : j = k
  · subst hjk
    rw [if_pos rfl, push_to, getD_set_self _ hj, List.length_append]
    simp
  · rw [if_neg hjk, push_to, getD_set_ne _ hjk]
    simp

/-- Size accounting for the migrant push loop: each deme ends with its initial
size plus one individual per push aimed at it. -/
lemma fold_push_len (bf : Nat → List Nat) (f g : Nat → Nat) :
    ∀ (is : List Nat) (np : List (List (List Nat))),
      (∀ i ∈ is, f i < np.length ∧ g i < np.length) →
      ∀ k,
        ((is.foldl (fun np2 i => push_to (push_to np2 (f i) (bf i)) (g i) (bf i)) np).getD k
            []).length
          = (np.getD k []).length + is.countP (fun i => decide (f i = k))
            + is.countP (fun i => decide (g i = k))
  | [], np, hbound, k => by simp
  | i0 :: is, np, hbound, k => by
    rw [List.foldl_cons]
    have h0 := hbound i0 (List.mem_cons_self i0 is)
    have hrec := fold_push_len bf f g is
      (push_to (push_to np (f i0) (bf i0)) (g i0) (bf i0))
      (fun i hi => by
        rw [push_to_outer_length, push_to_outer_length]
        exact hbound i (List.mem_cons_of_mem i0 hi)) k
    rw [hrec]
    rw [push_to_getD_len _ _ _ k (by rw [push_to_outer_length]; exact h0.2)]
    rw [push_to_getD_len _ _ _ k h0.1]
    simp only [List.countP_cons]
    by_cases h1 : f i0 = k <;> by_cases h2 : g i0 = k <;> simp [h1, h2] <;> omega

/-- Adding `r` modulo `D` maps the range onto its rotation by `r`. -/
lemma map_add_mod_range (D r : Nat) (hD : 0 < D) :
    (List.range D).map (fun i => (i + r) % D) = (List.range D).rotate r := by
  apply List.ext_getElem (by simp)
  intro j h1 h2
  simp only [List.getElem_map, List.getElem_range]
  rw [List.getElem_rotate]
  simp [List.length_range]

/-- The value `k` occurs exactly once in `range D` when `k < D`. -/
lemma countP_eq_range : ∀ (D k : Nat), k < D →
    (List.range D).countP (fun x => decide (x = k)) = 1
  | 0, k, hk => absurd hk (by omega)
  | D+1, k, hk => by
    rw [List.range_succ, List.countP_append]
    by_cases hkD : k = D
    · subst hkD
      have h0 : (List.range k).countP (fun x => decide (x = k)) = 0 :=
        List.countP_eq_zero.mpr (fun a ha => by
          simp only [List.mem_range] at ha
          simp only [decide_eq_true_eq]
          omega)
      rw [h0]
      simp
    · have h1 := countP_eq_range D k (by omega)
      rw [h1]
      have h2 : ¬ (D = k) := fun hc => hkD hc.symm
      simp [h2]

/-- Exactly one index of `range D` is sent to `k` by adding `r` modulo `D`. -/
lemma countP_add_mod_range (D r k : Nat) (hk : k < D) :
    (List.range D).countP (fun i => decide ((i + r) % D = k)) = 1 := by
  have hD : 0 < D := by omega
  have h1 : (List.range D).countP (fun i => decide ((i + r) % D = k))
      = ((List.range D).map (fun i => (i + r) % D)).countP (fun x => decide (x = k)) := by
    rw [List.countP_map]
    rfl
  rw [h1, map_add_mod_range D r hD, ((List.range D).rotate_perm r).countP_eq,
    countP_eq_range D k hk]

/-- The migrant push loop keeps the number of demes. -/
lemma fold_push_outer_length (bf : Nat → List Nat) (f g : Nat → Nat) :
    ∀ (is : List Nat) (np : List (List (List Nat))),
      (is.foldl (fun np2 i => push_to (push_to np2 (f i) (bf i)) (g i) (bf i)) np).length
        = np.length
  | [], _ => rfl
  | i0 :: is, np => by
    rw [List.foldl_cons, fold_push_outer_length bf f g is _, push_to_outer_length,
      push_to_outer_length]

/-- Size accounting of the whole push loop over shrunken demes `S0`: the deme
count is preserved and every deme receives exactly two migrants, one along
each ring direction. -/
lemma migration_fold_sizes (fitness : List Nat → ℚ) (S0 : List (List (List Nat))) :
    ((List.range S0.length).foldl (fun np i =>
        push_to (push_to np ((i + 1) % S0.length)
            (max_element_by fitness (S0.getD i [])))
          ((i + S0.length - 1) % S0.length)
          (max_element_by fitness (S0.getD i []))) S0).length = S0.length ∧
    ∀ k, k < S0.length →
      (((List.range S0.length).foldl (fun np i =>
          push_to (push_to np ((i + 1) % S0.length)
              (max_element_by fitness (S0.getD i [])))
            ((i + S0.length - 1) % S0.length)
            (max_element_by fitness (S0.getD i []))) S0).getD k []).length
        = (S0.getD k []).length + 2 := by
  constructor
  · exact fold_push_outer_length (fun i => max_element_by fitness (S0.getD i []))
      (fun i => (i + 1) % S0.length) (fun i => (i + S0.length - 1) % S0.length)
      (List.range S0.length) S0
  · intro k hk
    have hD : 0 < S0.length := by omega
    have hfold := fold_push_len (fun i => max_element_by fitness (S0.getD i []))
      (fun i => (i + 1) % S0.length) (fun i => (i + S0.length - 1) % S0.length)
      (List.range S0.length) S0
      (fun i _ => ⟨Nat.mod_lt _ hD, Nat.mod_lt _ hD⟩) k
    rw [hfold, countP_add_mod_range S0.length 1 k hk]
    have hfun : (fun i => decide ((i + S0.length - 1) % S0.length = k))
        = (fun i => decide ((i + (S0.length - 1)) % S0.length = k)) := by
      funext i
      rw [Nat.add_sub_assoc (by omega) i]
    rw [hfun, countP_add_mod_range S0.length (S0.length - 1) k hk]

/-- C5: a ranked-replacement migration event — sort each deme by fitness
ascending, drop its two worst individuals, then append the best individual of
each deme to both ring neighbours — leaves every deme at its pre-migration
size: two dropped, two received. -/
theorem migration_ranked_preserves_deme_sizes (fitness : List Nat → ℚ)
    (demes : List (List (List Nat))) (h3 : ∀ d ∈ demes, 3 ≤ d.length) :
    (migration_ranked fitness demes).map List.length = demes.map List.length := by
  have hcore := migration_fold_sizes fitness
    (demes.map (fun d => (sort_by_fitness fitness d).drop 2))
  apply List.ext_getElem
  · have e1 : (List.map List.length (migration_ranked fitness demes)).length
        = (migration_ranked fitness demes).length := List.length_map _ _
    have e2 : (List.map List.length demes).length = demes.length := List.length_map _ _
    rw [e1, e2, migration_ranked, hcore.1, List.length_map]
  · intro k h1 h2
    have hk : k < demes.length := by simpa using h2
    rw [List.getElem_map, List.getElem_map]
    have hklt : k < (migration_ranked fitness demes).length := by simpa using h1
    rw [← List.getD_eq_getElem (migration_ranked fitness demes) ([] : List (List Nat)) hklt]
    rw [migration_ranked]
    have hkS : k < (demes.map (fun d => (sort_by_fitness fitness d).drop 2)).length := by
      rw [List.length_map]
      exact hk
    rw [hcore.2 k hkS]
    rw [List.getD_eq_getElem _ _ hkS, List.getElem_map]
    rw [List.length_drop, sort_by_fitness, List.length_mergeSort]
    have h3k := h3 (demes[k]) (List.getElem_mem _)
    omega

/-- Witness for C5 on three concrete demes of three individuals each. -/
theorem migration_ranked_preserves_deme_sizes_witness :
    (migration_ranked (fun c => (c.headD 0 : ℚ))
      [[[1], [2], [3]], [[4], [5], [6]], [[7], [8], [9]]]).map List.length =
      [[[1], [2], [3]], [[4], [5], [6]], [[7], [8], [9]]].map List.length :=
  migration_ranked_preserves_deme_sizes (fun c => (c.headD 0 : ℚ))
    [[[1], [2], [3]], [[4], [5], [6]], [[7], [8], [9]]] (by decide)
